import Mathlib

/-!
Verification development for the Misa-Cash simulation-and-search subsystem.

The Python sources embedded here:
* `src/ml/backtesting/engine.py`   — `BacktestConfig`, `TradeInfo`, `BacktestEngine`
* `src/ml/optimization/optimizer.py` — `StrategyOptimizer` (grid search, genetic, walk-forward)
* `src/evaluation/cross_validation.py` — `CrossValidator._validate_split` / `validate`
* `src/evaluation/metrics.py`      — `PerformanceMetrics.calculate_drawdown_metrics`
* `src/data/indicators/technical.py` — `TechnicalIndicators.calculate_all` (column accesses)

Python floats are modelled as `ℚ`; bar timestamps as natural-number bar indices.
The engine is embedded as explicit state passing: every mutation of the Python
object `self` becomes a function `EngineState → EngineState`.
-/

namespace MisaCash

/-- `BacktestConfig` from engine.py (floats as `ℚ`, `max_positions` as `ℕ`). -/
structure BacktestConfig where
  initial_capital : ℚ
  position_size : ℚ
  max_positions : ℕ
  stop_loss : ℚ
  take_profit : ℚ
  commission : ℚ
  slippage : ℚ
  use_fractional : Bool
deriving DecidableEq

/-- The dataclass defaults of `BacktestConfig`. -/
def defaultConfig : BacktestConfig :=
  { initial_capital := 100000
    position_size := 1/10
    max_positions := 5
    stop_loss := 1/50
    take_profit := 1/20
    commission := 1/1000
    slippage := 1/1000
    use_fractional := true }

/-- The `position_type` field: the engine's branches test `== 'long'` and treat
everything else as short, so two values capture the behaviour. -/
inductive PosType where
  | long
  | short
deriving DecidableEq

/-- One OHLCV bar, restricted to the fields the simulation loop reads
(`row['high']`, `row['low']`, `row['close']`).  Column presence/absence for
`prepare_data` is modelled separately at the column-name level below. -/
structure Row where
  high : ℚ
  low : ℚ
  close : ℚ
deriving DecidableEq

/-- `TradeInfo` from engine.py.  Dates are bar indices. -/
structure TradeInfo where
  symbol : String
  entry_date : ℕ
  entry_price : ℚ
  position_type : PosType
  size : ℚ
  stop_loss : ℚ
  take_profit : ℚ
  exit_date : Option ℕ := none
  exit_price : Option ℚ := none
  pnl : Option ℚ := none
  exit_reason : Option String := none
deriving DecidableEq

/-- A strategy signal: `{type: entry|exit, symbol, position_type?}`. -/
inductive Signal where
  | entry (symbol : String) (position_type : PosType)
  | exit (symbol : String)
deriving DecidableEq

/-- The mutable fields of `BacktestEngine` (`self.capital`, `self.equity`,
`self.positions`, `self.trades`, `self.current_date`). -/
structure EngineState where
  capital : ℚ
  equity : List (ℕ × ℚ)
  positions : List TradeInfo
  trades : List TradeInfo
  current_date : Option ℕ
deriving DecidableEq

/-- `BacktestEngine.reset`. -/
def resetState (cfg : BacktestConfig) : EngineState :=
  { capital := cfg.initial_capital
    equity := []
    positions := []
    trades := []
    current_date := none }

/-- The realized pnl stored on a closed trade; closing always sets `pnl`,
so the default 0 is never read on trades produced by the engine. -/
def tradePnl (t : TradeInfo) : ℚ :=
  t.pnl.getD 0

/-- The closed `TradeInfo` built by `_close_position`: exit fields set,
pnl = directional pnl minus entry and exit commissions. -/
def closeTrade (cfg : BacktestConfig) (date : ℕ) (pos : TradeInfo)
    (price : ℚ) (reason : String) : TradeInfo :=
  let pnl0 : ℚ :=
    if pos.position_type = PosType.long then
      (price - pos.entry_price) * pos.size
    else
      (pos.entry_price - price) * pos.size
  let comm : ℚ :=
    pos.entry_price * pos.size * cfg.commission + price * pos.size * cfg.commission
  { pos with
      exit_date := some date
      exit_price := some price
      pnl := some (pnl0 - comm)
      exit_reason := some reason }

/-- The state effect of `_close_position` on everything but the open-position
list (the caller decides how the closed position leaves `positions`):
`self.capital += pnl` and `self.trades.append(position)`. -/
def closeIntoState (cfg : BacktestConfig) (date : ℕ) (st : EngineState)
    (pos : TradeInfo) (price : ℚ) (reason : String) : EngineState :=
  let t := closeTrade cfg date pos price reason
  { st with
      capital := st.capital + tradePnl t
      trades := st.trades ++ [t] }

/-- `_update_positions`: each open position is checked in order against its
stop/take levels on the current bar and either closed at the trigger price or
kept.  The Python loop iterates a snapshot and removes from the live list;
structurally this folds each snapshot element into close-or-keep. -/
def updatePositions (cfg : BacktestConfig) (date : ℕ) (row : Row)
    (s : EngineState) : EngineState :=
  s.positions.foldl
    (fun st pos =>
      if pos.position_type = PosType.long then
        if row.low ≤ pos.stop_loss then
          closeIntoState cfg date st pos pos.stop_loss "stop_loss"
        else if pos.take_profit ≤ row.high then
          closeIntoState cfg date st pos pos.take_profit "take_profit"
        else
          { st with positions := st.positions ++ [pos] }
      else
        if pos.stop_loss ≤ row.high then
          closeIntoState cfg date st pos pos.stop_loss "stop_loss"
        else if row.low ≤ pos.take_profit then
          closeIntoState cfg date st pos pos.take_profit "take_profit"
        else
          { st with positions := st.positions ++ [pos] })
    { s with positions := [] }

/-- `_process_signal`.  Entry: rejected when the open-position count has
reached `max_positions`; execution price is `close * (1 + slippage)`;
non-fractional sizing floors and silently skips a floor-to-zero entry.
Exit: every open position with the signalled symbol is closed at
`close * (1 - slippage)` with reason `signal`. -/
def processSignal (cfg : BacktestConfig) (date : ℕ) (row : Row)
    (s : EngineState) (sig : Signal) : EngineState :=
  match sig with
  | Signal.entry symbol position_type =>
    if cfg.max_positions ≤ s.positions.length then s
    else
      let position_value := s.capital * cfg.position_size
      let price := row.close * (1 + cfg.slippage)
      let size0 := position_value / price
      let size : ℚ := if cfg.use_fractional then size0 else ((⌊size0⌋ : ℤ) : ℚ)
      if cfg.use_fractional = false ∧ size = 0 then s
      else
        let sl :=
          if position_type = PosType.long then price * (1 - cfg.stop_loss)
          else price * (1 + cfg.stop_loss)
        let tp :=
          if position_type = PosType.long then price * (1 + cfg.take_profit)
          else price * (1 - cfg.take_profit)
        { s with
            positions := s.positions ++
              [{ symbol := symbol
                 entry_date := date
                 entry_price := price
                 position_type := position_type
                 size := size
                 stop_loss := sl
                 take_profit := tp }] }
  | Signal.exit symbol =>
    s.positions.foldl
      (fun st pos =>
        if pos.symbol = symbol then
          closeIntoState cfg date st pos (row.close * (1 - cfg.slippage)) "signal"
        else
          { st with positions := st.positions ++ [pos] })
      { s with positions := [] }

/-- `_close_all_positions`: every open position is closed at
`close * (1 - slippage)` with reason `end_of_test`. -/
def closeAllPositions (cfg : BacktestConfig) (date : ℕ) (row : Row)
    (s : EngineState) : EngineState :=
  s.positions.foldl
    (fun st pos =>
      closeIntoState cfg date st pos (row.close * (1 - cfg.slippage)) "end_of_test")
    { s with positions := [] }

/-- `_calculate_equity`: realized capital plus each open position's pnl
valued at the bar close. -/
def calcEquity (row : Row) (s : EngineState) : ℚ :=
  s.positions.foldl
    (fun eq pos =>
      eq +
        (if pos.position_type = PosType.long then
          (row.close - pos.entry_price) * pos.size
        else
          (pos.entry_price - row.close) * pos.size))
    s.capital

/-- A strategy: `(history_prefix, state) -> list<Signal>`. -/
def Strategy : Type :=
  List Row → EngineState → List Signal

/-- The body of the main `run` loop up to — but not including — the equity
append: set `current_date`, update open positions, query the strategy on the
history prefix, fold the returned signals through `_process_signal`. -/
def barPreEquity (cfg : BacktestConfig) (strategy : Strategy) (bars : List Row)
    (s : EngineState) (i : ℕ) (row : Row) : EngineState :=
  let s1 := { s with current_date := some i }
  let s2 := updatePositions cfg i row s1
  let signals := strategy (bars.take (i + 1)) s2
  signals.foldl (processSignal cfg i row) s2

/-- One full iteration of the `run` loop: the pre-equity part followed by
`self.equity.append({date, equity})`. -/
def processBar (cfg : BacktestConfig) (strategy : Strategy) (bars : List Row)
    (s : EngineState) (i : ℕ) (row : Row) : EngineState :=
  let s3 := barPreEquity cfg strategy bars s i row
  { s3 with equity := s3.equity ++ [(i, calcEquity row s3)] }

/-- The main loop of `run` over the enumerated bars. -/
def loopBars (cfg : BacktestConfig) (strategy : Strategy) (bars : List Row)
    (s : EngineState) : EngineState :=
  bars.enum.foldl (fun st p => processBar cfg strategy bars st p.1 p.2) s

/-- The state reached after the first `n` bars of the loop. -/
def loopBarsUpTo (cfg : BacktestConfig) (strategy : Strategy) (bars : List Row)
    (s : EngineState) (n : ℕ) : EngineState :=
  (bars.enum.take n).foldl (fun st p => processBar cfg strategy bars st p.1 p.2) s

/-- The result dictionary of `_calculate_statistics`, modelled as the exact
key list of the returned dict literal plus the numeric fields the claims
need.  The zero-trade branch returns early with a smaller dict. -/
structure StatsDict where
  keys : List String
  total_trades : ℕ
  win_rate : ℚ
  total_return : ℚ
deriving DecidableEq

/-- `_calculate_statistics`. -/
def calculateStatistics (cfg : BacktestConfig) (s : EngineState) : StatsDict :=
  if s.trades.isEmpty then
    { keys := ["total_trades", "win_rate", "profit_factor", "sharpe_ratio",
               "max_drawdown", "total_return"]
      total_trades := 0
      win_rate := 0
      total_return := 0 }
  else
    { keys := ["total_trades", "winning_trades", "losing_trades", "win_rate",
               "profit_factor", "sharpe_ratio", "max_drawdown", "total_return",
               "equity_curve"]
      total_trades := s.trades.length
      win_rate := ((s.trades.filter (fun t => 0 < tradePnl t)).length : ℚ) /
        (s.trades.length : ℚ)
      total_return := (s.capital - cfg.initial_capital) / cfg.initial_capital }

/-- `BacktestEngine.run` on an explicit starting state.  `run` performs no
reset: the loop starts from the state the engine is left in.  An empty bar
list makes `data.iloc[-1]` raise in Python; that is the `none` case. -/
def run (cfg : BacktestConfig) (strategy : Strategy) (s : EngineState)
    (bars : List Row) : Option (EngineState × StatsDict) :=
  let s1 := loopBars cfg strategy bars s
  match bars.getLast? with
  | none => none
  | some lastRow =>
    let s2 := closeAllPositions cfg (bars.length - 1) lastRow s1
    some (s2, calculateStatistics cfg s2)

/-- The engine-state threading of `StrategyOptimizer.grid_search`: one
backtest per parameter combination on the *same* engine instance, never
calling `reset`, so each run starts from the final state of the previous
one.  Parameter binding is abstracted into the per-combination strategy. -/
def gridSearchStates (cfg : BacktestConfig) (bars : List Row) :
    List Strategy → EngineState → Option (EngineState × List StatsDict)
  | [], s => some (s, [])
  | strat :: rest, s =>
    match run cfg strat s bars with
    | none => none
    | some (s', st) =>
      (gridSearchStates cfg bars rest s').map (fun p => (p.1, st :: p.2))

/-!
## Column-access model of `prepare_data` / `TechnicalIndicators.calculate_all`

`prepare_data` performs no explicit validation: `sort_index` touches no
column, and the only way a missing OHLCV column surfaces is a pandas
`KeyError` from the first indicator computation that reads it.  A DataFrame
is modelled by the list of column names it has; the indicator code by the
ordered sequence of base-column reads it performs under the default
`IndicatorConfig` (reads of columns a sub-function itself just added always
succeed and are omitted).
-/

/-- The ordered base-column reads of `calculate_all` (default config):
moving averages (3 windows), EMAs (2 windows), volatility, ATR, RSI, MACD,
volume indicators (2 windows + force index), OBV, Bollinger, stochastic. -/
def calculateAllReads : List String :=
  ["close", "close", "close",
   "close", "close",
   "close",
   "high", "low", "high", "close", "low", "close",
   "close",
   "close", "close",
   "volume", "volume", "close", "volume",
   "close", "volume",
   "high", "low", "close",
   "low", "high", "close"]

/-- `prepare_data` at column level: the first read of an absent column is an
uncaught `KeyError` (the `Except.error` carries the column name). -/
def prepareDataCols (present : List String) : Except String Unit :=
  match calculateAllReads.find? (fun c => !(present.contains c)) with
  | some c => Except.error c
  | none => Except.ok ()

/-- `run` at column level: `prepare_data` runs before the bar loop, so a
missing-column `KeyError` aborts with zero bars executed; otherwise the loop
reads only `high`, `low`, `close` — all checked — and every bar executes. -/
def runCols (present : List String) (nBars : ℕ) : Except String ℕ :=
  match prepareDataCols present with
  | Except.error c => Except.error c
  | Except.ok _ => Except.ok nBars

/-!
## `PerformanceMetrics.calculate_drawdown_metrics` (metrics.py)

Embedded over `ℚ`: cumulative equity is the running product of `1 + r`,
the running peak its prefix maximum, drawdowns their ratio minus one.
Durations come from the positions of the rising/falling edges of the
in-drawdown indicator; the two index arrays are subtracted with numpy
semantics (exact when the lengths agree, broadcast when one side has a
single element, `ValueError` otherwise).
-/

/-- `np.cumprod` (running product, seeded by the accumulator). -/
def cumprodAux (acc : ℚ) : List ℚ → List ℚ
  | [] => []
  | x :: xs => (acc * x) :: cumprodAux (acc * x) xs

/-- `cumulative = (1 + returns).cumprod()`. -/
def cumulativeEquity (returns : List ℚ) : List ℚ :=
  cumprodAux 1 (returns.map (fun r => 1 + r))

/-- `np.maximum.accumulate` continued from a seed. -/
def cummaxAux (acc : ℚ) : List ℚ → List ℚ
  | [] => []
  | x :: xs => (max acc x) :: cummaxAux (max acc x) xs

/-- `rolling_max = np.maximum.accumulate(cumulative)`. -/
def rollingMax : List ℚ → List ℚ
  | [] => []
  | x :: xs => x :: cummaxAux x xs

/-- `drawdowns = cumulative / rolling_max - 1`. -/
def drawdownsOf (returns : List ℚ) : List ℚ :=
  let c := cumulativeEquity returns
  List.zipWith (fun cv m => cv / m - 1) c (rollingMax c)

/-- `is_drawdown = drawdowns < 0`. -/
def isDrawdownOf (returns : List ℚ) : List Bool :=
  (drawdownsOf returns).map (fun d => decide (d < 0))

/-- Booleans as the ints `is_drawdown.astype(int)` produces. -/
def boolToInt (b : Bool) : ℤ :=
  cond b 1 0

/-- `np.diff` of the 0/1 indicator. -/
def diffInt (b : List Bool) : List ℤ :=
  List.zipWith (fun x y => boolToInt y - boolToInt x) b b.tail

/-- `np.where(l == v)[0]`: the indices holding value `v`, in order. -/
def whereEq (l : List ℤ) (v : ℤ) : List ℕ :=
  (l.enum.filter (fun p => decide (p.2 = v))).map (fun p => p.1)

/-- `drawdown_starts`: first bars below the running peak. -/
def ddStarts (returns : List ℚ) : List ℕ :=
  (whereEq (diffInt (isDrawdownOf returns)) 1).map (fun n => n + 1)

/-- `drawdown_ends`: first bars recovered to the running peak. -/
def ddEnds (returns : List ℚ) : List ℕ :=
  (whereEq (diffInt (isDrawdownOf returns)) (-1)).map (fun n => n + 1)

/-- numpy elementwise subtraction of two 1-d arrays: exact when the lengths
agree, broadcast when one operand has a single element, `ValueError`
(`none`) otherwise. -/
def npSub (a b : List ℤ) : Option (List ℤ) :=
  if a.length = b.length then some (List.zipWith (fun x y => x - y) a b)
  else
    match a, b with
    | [x], ys => some (ys.map (fun y => x - y))
    | xs, [y] => some (xs.map (fun x => x - y))
    | _, _ => none

/-- `np.max` on a list known non-empty at every use site (0 is a dead
default, never reached on the guarded paths). -/
def listMaxD : List ℤ → ℤ
  | [] => 0
  | x :: xs => xs.foldl max x

/-- `np.min` over rationals: `none` models the `ValueError` on an empty
array. -/
def listMinQ : List ℚ → Option ℚ
  | [] => none
  | x :: xs => some (xs.foldl min x)

/-- `np.mean` of an integer array as an exact rational. -/
def meanQ (l : List ℤ) : ℚ :=
  ((l.map (fun x => (x : ℚ))).sum) / (l.length : ℚ)

/-- The `(max_drawdown_duration, avg_drawdown_duration)` pair of
`calculate_drawdown_metrics`: when both transition arrays are non-empty,
`durations = drawdown_ends - drawdown_starts` under numpy subtraction
(`none` = the `ValueError` escaping the method); otherwise `(0, 0)`. -/
def ddDurationStats (returns : List ℚ) : Option (ℤ × ℚ) :=
  let starts := ddStarts returns
  let ends := ddEnds returns
  if 0 < starts.length ∧ 0 < ends.length then
    match npSub (ends.map (fun n : ℕ => (n : ℤ))) (starts.map (fun n : ℕ => (n : ℤ))) with
    | none => none
    | some durations => some (listMaxD durations, meanQ durations)
  else
    some (0, 0)

/-- Modelled from the spec sentence of the claim: each *completed* drawdown
pairs the k-th start with the k-th end, and a drawdown still open at series
end is excluded from the duration statistics. -/
def claimDurations (returns : List ℚ) : List ℤ :=
  List.zipWith (fun (e s : ℕ) => (e : ℤ) - (s : ℤ)) (ddEnds returns)
    (ddStarts returns)

/-- Duration statistics as the claim describes them: over completed
drawdowns only, `(0, 0)` when none completed. -/
def claimDurationStats (returns : List ℚ) : Option (ℤ × ℚ) :=
  let ds := claimDurations returns
  if 0 < ds.length then some (listMaxD ds, meanQ ds) else some (0, 0)

/-!
## `CrossValidator._validate_split` and metric selection (cross_validation.py)
-/

/-- The state dict `{'positions': []}` handed to the strategy. -/
structure CvState where
  positions : List TradeInfo
deriving DecidableEq

/-- A cross-validation strategy (already bound to its parameters). -/
def CvStrategy : Type :=
  List Row → CvState → List Signal

/-- The per-slice half of `_validate_split`: a return series initialized to
`0.0` over the slice index and an empty trade list, then one strategy call
per bar on the history prefix whose signal-execution branch is `pass`. -/
def cvApplyStrategy (strat : CvStrategy) (data : List Row) :
    List ℚ × List TradeInfo :=
  (List.range data.length).foldl
    (fun acc i =>
      let signals := strat (data.take (i + 1)) { positions := [] }
      if signals.isEmpty then acc else acc)
    (List.replicate data.length (0 : ℚ), [])

/-- The field names of the metric dataclasses, in the category order
`calculate_all_metrics` builds its dict; the `trade` category exists only
when the trade list is non-empty. -/
def categoryFields (trades : List TradeInfo) : List (String × List String) :=
  [("risk", ["var_95", "var_99", "cvar_95", "beta", "volatility",
             "downside_risk", "correlation"]),
   ("return", ["total_return", "annual_return", "cagr", "risk_free_return",
               "excess_return", "risk_adjusted_return"]),
   ("robustness", ["stability_score", "consistency_score",
                   "regime_performance", "parameter_sensitivity",
                   "data_sensitivity"]),
   ("drawdown", ["max_drawdown", "avg_drawdown", "max_drawdown_duration",
                 "avg_drawdown_duration", "recovery_factor", "ulcer_index"])]
  ++ (if trades.isEmpty then []
      else [("trade", ["total_trades", "winning_trades", "losing_trades",
                       "win_rate", "profit_factor", "avg_win", "avg_loss",
                       "largest_win", "largest_loss", "avg_holding_period",
                       "expectancy"])])

/-- The `hasattr` scan of `_calculate_metrics`: the first category owning
the requested metric name, `none` when no category has it (the metric is
then silently absent from the selected dict). -/
def scanCategory (trades : List TradeInfo) (name : String) : Option String :=
  ((categoryFields trades).find? (fun p => p.2.contains name)).map (fun p => p.1)

/-- The names that survive the scan, in request order.  Under the default
request `['sharpe_ratio', 'max_drawdown', 'total_return']` the first is
dropped: no metrics dataclass has a `sharpe_ratio` field. -/
def selectedNames (perf : List String) (trades : List TradeInfo) : List String :=
  perf.filter (fun name => (scanCategory trades name).isSome)

/-- The default `performance_metrics` list of `CrossValidator`. -/
def defaultPerformanceMetrics : List String :=
  ["sharpe_ratio", "max_drawdown", "total_return"]

/-- `ReturnMetrics.total_return`: `(1 + returns).prod() - 1`. -/
def totalReturnMetric (returns : List ℚ) : ℚ :=
  (returns.map (fun r => 1 + r)).prod - 1

/-- `DrawdownMetrics.max_drawdown`: `np.min(drawdowns)` (`none` = the
empty-array `ValueError`, which `calculate_all_metrics` catches, emptying
the whole metrics dict). -/
def maxDrawdownMetric (returns : List ℚ) : Option ℚ :=
  listMinQ (drawdownsOf returns)

/-!
## `StrategyOptimizer.genetic_optimize` (optimizer.py)

Only the best-fitness bookkeeping decides the claim, so the random
construction of the next generation is abstracted into an arbitrary
function `nextPop` of the generation index, current population and its
scores: every theorem below holds for all draws of the randomness.
-/

/-- The value at `np.argmax` / `np.argmin` of a score list (`none` on an
empty population, where Python raises). -/
def listBest (maximize : Bool) : List ℚ → Option ℚ
  | [] => none
  | x :: xs => some (xs.foldl (fun a b => if maximize then max a b else min a b) x)

/-- The best-so-far update: `best` starts at the `∓inf` sentinel (`none`)
and is replaced exactly when the generation best strictly improves it. -/
def updateBest (maximize : Bool) (best : Option ℚ) (gb : Option ℚ) : Option ℚ :=
  match gb with
  | none => best
  | some g =>
    match best with
    | none => some g
    | some b => if (if maximize then b < g else g < b) then some g else some b

/-- The generation loop: per generation, score the population, update the
best-so-far, append it to `fitness_history`, build the next population. -/
def genAux {α : Type} (maximize : Bool) (fitness : α → ℚ)
    (nextPop : ℕ → List α → List ℚ → List α) :
    ℕ → ℕ → List α → Option ℚ → List (Option ℚ)
  | 0, _, _, _ => []
  | n + 1, g, pop, best =>
    let scores := pop.map fitness
    let best' := updateBest maximize best (listBest maximize scores)
    best' :: genAux maximize fitness nextPop n (g + 1) (nextPop g pop scores) best'

/-- `fitness_history` of `genetic_optimize`. -/
def fitnessHistory {α : Type} (maximize : Bool) (fitness : α → ℚ)
    (nextPop : ℕ → List α → List ℚ → List α) (pop0 : List α)
    (generations : ℕ) : List (Option ℚ) :=
  genAux maximize fitness nextPop generations 0 pop0 none

/-!
## `StrategyOptimizer.walk_forward_analysis` (optimizer.py)
-/

/-- The window loop of `walk_forward_analysis`, collecting each iteration's
`current_idx`.  The step is `s + 1` so the loop provably terminates; the
Python loop with `step_size = 0` never terminates, and the theorems assume
`0 < step_size`. -/
def wfAux (train test s total cur : ℕ) : List ℕ :=
  if cur + train + test ≤ total then
    cur :: wfAux train test s total (cur + (s + 1))
  else
    []
termination_by total + 1 - cur
decreasing_by
  simp_wf
  omega

/-- The `current_idx` values visited: the loop starts at 0 and advances by
`step_size` while `current_idx + train_size + test_size ≤ len(data)`. -/
def wfStarts (train test step total : ℕ) : List ℕ :=
  wfAux train test (step - 1) total 0

/-- `data.iloc[current_idx : current_idx + train_size]`. -/
def wfTrainSlice {β : Type} (data : List β) (train cur : ℕ) : List β :=
  (data.drop cur).take train

/-- `data.iloc[current_idx + train_size : current_idx + train_size + test_size]`. -/
def wfTestSlice {β : Type} (data : List β) (train test cur : ℕ) : List β :=
  (data.drop (cur + train)).take test

/-!
## Verification vocabulary

Helper definitions used to state and prove the theorems; they are not part
of the embedding itself.
-/

/-- A position's unrealized pnl at a bar close, as the claims phrase it. -/
def unrealizedPnl (close : ℚ) (pos : TradeInfo) : ℚ :=
  if pos.position_type = PosType.long then (close - pos.entry_price) * pos.size
  else (pos.entry_price - close) * pos.size

/-- The close-or-keep decision `_update_positions` makes for one open
position on one bar: the trigger price and reason, or `none` to keep. -/
def triggerOf (row : Row) (pos : TradeInfo) : Option (ℚ × String) :=
  if pos.position_type = PosType.long then
    if row.low ≤ pos.stop_loss then some (pos.stop_loss, "stop_loss")
    else if pos.take_profit ≤ row.high then some (pos.take_profit, "take_profit")
    else none
  else
    if pos.stop_loss ≤ row.high then some (pos.stop_loss, "stop_loss")
    else if row.low ≤ pos.take_profit then some (pos.take_profit, "take_profit")
    else none

/-- One step of a close-or-keep sweep over the open positions, as performed
by `_update_positions`, a signal exit, and `_close_all_positions`. -/
def sweepStep (cfg : BacktestConfig) (date : ℕ)
    (d : TradeInfo → Option (ℚ × String)) (st : EngineState)
    (pos : TradeInfo) : EngineState :=
  match d pos with
  | some pr => closeIntoState cfg date st pos pr.1 pr.2
  | none => { st with positions := st.positions ++ [pos] }

/-- The trades a sweep closes, in order. -/
def sweepClosed (cfg : BacktestConfig) (date : ℕ)
    (d : TradeInfo → Option (ℚ × String)) (l : List TradeInfo) :
    List TradeInfo :=
  l.filterMap (fun p => (d p).map (fun pr => closeTrade cfg date p pr.1 pr.2))

/-- The positions a sweep keeps open, in order. -/
def sweepKept (d : TradeInfo → Option (ℚ × String)) (l : List TradeInfo) :
    List TradeInfo :=
  l.filter (fun p => (d p).isNone)

/-- `run` leaves behind exactly the incoming trade history extended by the
trades it closes, with the capital moved by their summed pnl. -/
def tradesDelta (s s' : EngineState) : Prop :=
  ∃ δ, s'.trades = s.trades ++ δ ∧ s'.capital = s.capital + (δ.map tradePnl).sum

/-- The six keys present in both branches of `_calculate_statistics`. -/
def coreStatKeys : List String :=
  ["total_trades", "win_rate", "profit_factor", "sharpe_ratio",
   "max_drawdown", "total_return"]

/-- All fitness values observed in generations `0..i` of the genetic loop,
starting the trajectory at absolute generation `g` with population `pop`. -/
def observedScores {α : Type} (fitness : α → ℚ)
    (nextPop : ℕ → List α → List ℚ → List α) :
    ℕ → List α → ℕ → List ℚ
  | _, pop, 0 => pop.map fitness
  | g, pop, i + 1 =>
    pop.map fitness ++
      observedScores fitness nextPop (g + 1) (nextPop g pop (pop.map fitness)) i

/-- The strict-improvement comparison `genetic_optimize` uses, as a binary
operation (`max` under maximize, `min` under minimize). -/
def opQ (maximize : Bool) (a b : ℚ) : ℚ :=
  if maximize then max a b else min a b

/-!
## Concrete inputs used by counterexamples and witnesses
-/

/-- A bar with high 101, low 99, close 100. -/
def rowEx : Row :=
  { high := 101, low := 99, close := 100 }

/-- A flat bar at price 1. -/
def rowOne : Row :=
  { high := 1, low := 1, close := 1 }

/-- A strategy that never signals. -/
def noSignalStrategy : Strategy :=
  fun _ _ => []

/-- A strategy that goes long `"X"` on the first bar of a run and never
signals again. -/
def enterBarZero : Strategy :=
  fun h _ => if h.length = 1 then [Signal.entry "X" PosType.long] else []

/-- A friction-free config used to exercise two consecutive runs:
capital 100, half the capital per entry, wide stop/take levels, zero
commission and slippage. -/
def cfgSimple : BacktestConfig :=
  { initial_capital := 100
    position_size := 1/2
    max_positions := 5
    stop_loss := 1/2
    take_profit := 1
    commission := 0
    slippage := 0
    use_fractional := true }

/-- The trade `cfgSimple`/`enterBarZero` produces on `[rowOne, rowOne]`. -/
def tradeW : TradeInfo :=
  { symbol := "X", entry_date := 0, entry_price := 1,
    position_type := PosType.long, size := 50, stop_loss := 1/2,
    take_profit := 2, exit_date := some 1, exit_price := some 1,
    pnl := some 0, exit_reason := some "end_of_test" }

/-- The engine state after one `cfgSimple`/`enterBarZero` run. -/
def stateW1 : EngineState :=
  { capital := 100, equity := [(0, 100), (1, 100)], positions := [],
    trades := [tradeW], current_date := some 1 }

/-- The engine state after a second such run, without any reset. -/
def stateW2 : EngineState :=
  { capital := 100, equity := [(0, 100), (1, 100), (0, 100), (1, 100)],
    positions := [], trades := [tradeW, tradeW], current_date := some 1 }

/-- The statistics of the first witness run. -/
def statsW1 : StatsDict :=
  { keys := ["total_trades", "winning_trades", "losing_trades", "win_rate",
             "profit_factor", "sharpe_ratio", "max_drawdown", "total_return",
             "equity_curve"]
    total_trades := 1, win_rate := 0, total_return := 0 }

/-- The statistics of the second witness run: `total_trades` is 2, counting
the first run's residue. -/
def statsW2 : StatsDict :=
  { keys := ["total_trades", "winning_trades", "losing_trades", "win_rate",
             "profit_factor", "sharpe_ratio", "max_drawdown", "total_return",
             "equity_curve"]
    total_trades := 2, win_rate := 0, total_return := 0 }

/-- The final state of a `defaultConfig`/`noSignalStrategy` run on two
`rowEx` bars: no trades. -/
def stateNoTrades : EngineState :=
  { capital := 100000, equity := [(0, 100000), (1, 100000)], positions := [],
    trades := [], current_date := some 1 }

/-- The statistics of the no-trade run: only the six core keys. -/
def statsNoTrades : StatsDict :=
  { keys := ["total_trades", "win_rate", "profit_factor", "sharpe_ratio",
             "max_drawdown", "total_return"]
    total_trades := 0, win_rate := 0, total_return := 0 }

/-- The default config with `max_positions = 0`: every entry is rejected. -/
def cfgZeroMax : BacktestConfig :=
  { defaultConfig with max_positions := 0 }

/-- The final state of a `defaultConfig`/`noSignalStrategy` run on a single
`rowEx` bar. -/
def stateOneBar : EngineState :=
  { capital := 100000, equity := [(0, 100000)], positions := [], trades := [],
    current_date := some 0 }

/-- The statistics of that single-bar run. -/
def statsOneBar : StatsDict :=
  { keys := ["total_trades", "win_rate", "profit_factor", "sharpe_ratio",
             "max_drawdown", "total_return"]
    total_trades := 0, win_rate := 0, total_return := 0 }

/-!
## Infrastructure lemmas
-/

theorem sweep_foldl (cfg : BacktestConfig) (date : ℕ)
    (d : TradeInfo → Option (ℚ × String)) (l : List TradeInfo) :
    ∀ st : EngineState,
      l.foldl (sweepStep cfg date d) st =
        { capital := st.capital + ((sweepClosed cfg date d l).map tradePnl).sum
          equity := st.equity
          positions := st.positions ++ sweepKept d l
          trades := st.trades ++ sweepClosed cfg date d l
          current_date := st.current_date } := by
  induction l with
  | nil => intro st; simp [sweepClosed, sweepKept]
  | cons x xs ih =>
    intro st
    simp only [List.foldl_cons]
    rw [ih]
    cases hd : d x with
    | none =>
      simp [sweepStep, hd, sweepClosed, sweepKept, List.filterMap_cons,
        List.filter_cons]
    | some pr =>
      simp [sweepStep, hd, sweepClosed, sweepKept, closeIntoState,
        List.filterMap_cons, List.filter_cons, add_assoc]

theorem updatePositions_eq (cfg : BacktestConfig) (date : ℕ) (row : Row)
    (s : EngineState) :
    updatePositions cfg date row s =
      s.positions.foldl (sweepStep cfg date (triggerOf row))
        { s with positions := [] } := by
  unfold updatePositions
  congr 1
  funext st pos
  simp only [sweepStep, triggerOf]
  by_cases h1 : pos.position_type = PosType.long <;> simp only [h1] <;>
    split_ifs <;> rfl

theorem processSignal_exit_eq (cfg : BacktestConfig) (date : ℕ) (row : Row)
    (s : EngineState) (sym : String) :
    processSignal cfg date row s (Signal.exit sym) =
      s.positions.foldl
        (sweepStep cfg date (fun pos =>
          if pos.symbol = sym then
            some (row.close * (1 - cfg.slippage), "signal")
          else none))
        { s with positions := [] } := by
  simp only [processSignal]
  congr 1
  funext st pos
  simp only [sweepStep]
  split_ifs <;> rfl

theorem closeAll_eq (cfg : BacktestConfig) (date : ℕ) (row : Row)
    (s : EngineState) :
    closeAllPositions cfg date row s =
      s.positions.foldl
        (sweepStep cfg date
          (fun _ => some (row.close * (1 - cfg.slippage), "end_of_test")))
        { s with positions := [] } := by
  unfold closeAllPositions
  congr 1

theorem sweepKept_length_le (d : TradeInfo → Option (ℚ × String))
    (l : List TradeInfo) : (sweepKept d l).length ≤ l.length :=
  List.length_filter_le _ _

theorem calculateStatistics_total (cfg : BacktestConfig) (s : EngineState) :
    (calculateStatistics cfg s).total_trades = s.trades.length := by
  unfold calculateStatistics
  split_ifs with h
  · simp only [List.isEmpty_iff] at h
    simp [h]
  · rfl

theorem tradesDelta_refl (s : EngineState) : tradesDelta s s :=
  ⟨[], by simp, by simp⟩

theorem tradesDelta_trans {a b c : EngineState} (h1 : tradesDelta a b)
    (h2 : tradesDelta b c) : tradesDelta a c := by
  obtain ⟨δ1, ht1, hc1⟩ := h1
  obtain ⟨δ2, ht2, hc2⟩ := h2
  exact ⟨δ1 ++ δ2, by simp [ht2, ht1], by simp [hc2, hc1, add_assoc]⟩

theorem tradesDelta_sweep (cfg : BacktestConfig) (date : ℕ)
    (d : TradeInfo → Option (ℚ × String)) (s : EngineState) :
    tradesDelta s
      (s.positions.foldl (sweepStep cfg date d) { s with positions := [] }) := by
  rw [sweep_foldl]
  exact ⟨sweepClosed cfg date d s.positions, rfl, rfl⟩

theorem tradesDelta_updatePositions (cfg : BacktestConfig) (date : ℕ)
    (row : Row) (s : EngineState) :
    tradesDelta s (updatePositions cfg date row s) := by
  rw [updatePositions_eq]
  exact tradesDelta_sweep cfg date _ s

theorem processSignal_entry_frame (cfg : BacktestConfig) (date : ℕ)
    (row : Row) (s : EngineState) (sym : String) (pt : PosType) :
    (processSignal cfg date row s (Signal.entry sym pt)).trades = s.trades ∧
      (processSignal cfg date row s (Signal.entry sym pt)).capital = s.capital ∧
      (processSignal cfg date row s (Signal.entry sym pt)).equity = s.equity := by
  refine ⟨?_, ?_, ?_⟩ <;> (simp only [processSignal]; split_ifs <;> rfl)

theorem tradesDelta_processSignal (cfg : BacktestConfig) (date : ℕ)
    (row : Row) (s : EngineState) (sig : Signal) :
    tradesDelta s (processSignal cfg date row s sig) := by
  cases sig with
  | entry sym pt =>
    obtain ⟨h1, h2, _⟩ := processSignal_entry_frame cfg date row s sym pt
    exact ⟨[], by simp [h1], by simp [h2]⟩
  | exit sym =>
    rw [processSignal_exit_eq]
    exact tradesDelta_sweep cfg date _ s

theorem tradesDelta_signalFold (cfg : BacktestConfig) (date : ℕ) (row : Row)
    (sigs : List Signal) :
    ∀ st : EngineState,
      tradesDelta st (sigs.foldl (processSignal cfg date row) st) := by
  induction sigs with
  | nil => intro st; exact tradesDelta_refl st
  | cons sig rest ih =>
    intro st
    exact tradesDelta_trans (tradesDelta_processSignal cfg date row st sig)
      (ih (processSignal cfg date row st sig))

theorem tradesDelta_barPreEquity (cfg : BacktestConfig) (strat : Strategy)
    (bars : List Row) (s : EngineState) (i : ℕ) (row : Row) :
    tradesDelta s (barPreEquity cfg strat bars s i row) := by
  unfold barPreEquity
  refine tradesDelta_trans ?_ (tradesDelta_signalFold cfg i row _ _)
  have h := tradesDelta_updatePositions cfg i row { s with current_date := some i }
  obtain ⟨δ, h1, h2⟩ := h
  exact ⟨δ, h1, h2⟩

theorem tradesDelta_processBar (cfg : BacktestConfig) (strat : Strategy)
    (bars : List Row) (s : EngineState) (i : ℕ) (row : Row) :
    tradesDelta s (processBar cfg strat bars s i row) := by
  unfold processBar
  obtain ⟨δ, h1, h2⟩ := tradesDelta_barPreEquity cfg strat bars s i row
  exact ⟨δ, h1, h2⟩

theorem tradesDelta_loopFold (cfg : BacktestConfig) (strat : Strategy)
    (bars : List Row) (l : List (ℕ × Row)) :
    ∀ st : EngineState,
      tradesDelta st
        (l.foldl (fun st p => processBar cfg strat bars st p.1 p.2) st) := by
  induction l with
  | nil => intro st; exact tradesDelta_refl st
  | cons p rest ih =>
    intro st
    exact tradesDelta_trans (tradesDelta_processBar cfg strat bars st p.1 p.2)
      (ih (processBar cfg strat bars st p.1 p.2))

theorem tradesDelta_closeAll (cfg : BacktestConfig) (date : ℕ) (row : Row)
    (s : EngineState) : tradesDelta s (closeAllPositions cfg date row s) := by
  rw [closeAll_eq]
  exact tradesDelta_sweep cfg date _ s

theorem run_tradesDelta (cfg : BacktestConfig) (strat : Strategy)
    (s : EngineState) (bars : List Row) (s' : EngineState) (st : StatsDict)
    (h : run cfg strat s bars = some (s', st)) :
    tradesDelta s s' ∧ st.total_trades = s'.trades.length := by
  unfold run at h
  cases hl : bars.getLast? with
  | none => rw [hl] at h; exact absurd h (by simp)
  | some lastRow =>
    rw [hl] at h
    simp only [Option.some.injEq, Prod.mk.injEq] at h
    obtain ⟨hs, hst⟩ := h
    constructor
    · rw [← hs]
      exact tradesDelta_trans
        (tradesDelta_loopFold cfg strat bars bars.enum s)
        (tradesDelta_closeAll cfg (bars.length - 1) lastRow _)
    · rw [← hst, ← hs]
      exact calculateStatistics_total cfg _

theorem closeTrade_exit_price (cfg : BacktestConfig) (date : ℕ)
    (pos : TradeInfo) (price : ℚ) (reason : String) :
    (closeTrade cfg date pos price reason).exit_price = some price :=
  rfl

theorem sweepClosed_exit_prices (cfg : BacktestConfig) (date : ℕ) (px : ℚ)
    (rs sym : String) (l : List TradeInfo) :
    (sweepClosed cfg date
        (fun pos => if pos.symbol = sym then some (px, rs) else none) l).map
      TradeInfo.exit_price =
      List.replicate (l.countP (fun p => p.symbol == sym)) (some px) := by
  induction l with
  | nil => rfl
  | cons p rest ih =>
    by_cases h : p.symbol = sym
    · have hb : (p.symbol == sym) = true := by simp [h]
      simp only [sweepClosed, List.filterMap_cons, if_pos h, Option.map_some',
        List.map_cons, List.countP_cons, hb, if_true, List.replicate_succ,
        closeTrade_exit_price] at ih ⊢
      exact congrArg _ ih
    · have hb : (p.symbol == sym) = false := by simp [h]
      simp only [sweepClosed, List.filterMap_cons, if_neg h, Option.map_none',
        List.countP_cons, hb, if_false, Nat.add_zero] at ih ⊢
      exact ih

theorem sweepClosed_const_prices (cfg : BacktestConfig) (date : ℕ) (px : ℚ)
    (rs : String) (l : List TradeInfo) :
    (sweepClosed cfg date (fun _ => some (px, rs)) l).map
      TradeInfo.exit_price = List.replicate l.length (some px) := by
  induction l with
  | nil => rfl
  | cons p rest ih =>
    simp only [sweepClosed, List.filterMap_cons, Option.map_some',
      List.map_cons, List.length_cons, List.replicate_succ,
      closeTrade_exit_price] at ih ⊢
    exact congrArg _ ih

/-!
## C1 — slippage direction
-/

/-- C1 counterexample: the claim says a short entry executes at
`close * (1 - slippage)`, but the engine opens the short at
`close * (1 + slippage)` — the favourable side for a short seller — so the
slippage sign does not depend on the position type. -/
theorem C1_counterexample :
    ((processSignal defaultConfig 0 rowEx (resetState defaultConfig)
        (Signal.entry "X" PosType.short)).positions.map
      TradeInfo.entry_price) = [rowEx.close * (1 + defaultConfig.slippage)] ∧
    rowEx.close * (1 + defaultConfig.slippage) ≠
      rowEx.close * (1 - defaultConfig.slippage) := by
  constructor
  · norm_num [processSignal, resetState, defaultConfig, rowEx]
  · norm_num [defaultConfig, rowEx]

/-- C1 (amended): every accepted entry — long or short — executes at
`close * (1 + slippage)`, and every signal exit and end-of-test close — long
or short — executes at `close * (1 - slippage)`; the sign of the slippage
adjustment is fixed and does not depend on the position type. -/
theorem C1_slippage_fixed_signs (cfg : BacktestConfig) (date : ℕ) (row : Row)
    (s : EngineState) (sym : String) (pt : PosType) :
    ((processSignal cfg date row s (Signal.entry sym pt)).positions.map
        TradeInfo.entry_price = s.positions.map TradeInfo.entry_price ∨
      (processSignal cfg date row s (Signal.entry sym pt)).positions.map
        TradeInfo.entry_price =
        s.positions.map TradeInfo.entry_price ++
          [row.close * (1 + cfg.slippage)]) ∧
    ((processSignal cfg date row s (Signal.exit sym)).trades.map
        TradeInfo.exit_price =
      s.trades.map TradeInfo.exit_price ++
        List.replicate (s.positions.countP (fun p => p.symbol == sym))
          (some (row.close * (1 - cfg.slippage)))) ∧
    ((closeAllPositions cfg date row s).trades.map TradeInfo.exit_price =
      s.trades.map TradeInfo.exit_price ++
        List.replicate s.positions.length
          (some (row.close * (1 - cfg.slippage)))) := by
  refine ⟨?_, ?_, ?_⟩
  · simp only [processSignal]
    split_ifs <;> first
      | exact Or.inl rfl
      | exact Or.inr (by simp)
  · rw [processSignal_exit_eq, sweep_foldl]
    simp [sweepClosed_exit_prices]
  · rw [closeAll_eq, sweep_foldl]
    simp [sweepClosed_const_prices]

/-!
## C2 — `run` does not restore the initial state
-/

/-- C2: `run` never resets the engine: across two consecutive runs on one
engine state (as `grid_search`, `genetic_optimize` and
`walk_forward_analysis` do, never calling `reset`), the second run starts
from the first run's final capital and closed-trade list, and its reported
`total_trades` counts the first run's residue; `gridSearchStates` threads
exactly these states. -/
theorem C2_run_accumulates (cfg : BacktestConfig) (strat1 strat2 : Strategy)
    (s : EngineState) (bars1 bars2 : List Row) (s1 s2 : EngineState)
    (st1 st2 : StatsDict)
    (h1 : run cfg strat1 s bars1 = some (s1, st1))
    (h2 : run cfg strat2 s1 bars2 = some (s2, st2)) :
    (∃ δ1 δ2,
        s1.trades = s.trades ++ δ1 ∧
        s2.trades = (s.trades ++ δ1) ++ δ2 ∧
        st1.total_trades = s.trades.length + δ1.length ∧
        st2.total_trades = (s.trades.length + δ1.length) + δ2.length ∧
        s1.capital = s.capital + (δ1.map tradePnl).sum ∧
        s2.capital = s1.capital + (δ2.map tradePnl).sum) ∧
    gridSearchStates cfg bars2 [strat2] s1 = some (s2, [st2]) := by
  obtain ⟨⟨δ1, ha, hb⟩, htt1⟩ := run_tradesDelta cfg strat1 s bars1 s1 st1 h1
  obtain ⟨⟨δ2, hc, hd⟩, htt2⟩ := run_tradesDelta cfg strat2 s1 bars2 s2 st2 h2
  refine ⟨⟨δ1, δ2, ha, by rw [hc, ha], ?_, ?_, hb, hd⟩, ?_⟩
  · rw [htt1, ha]; simp
  · rw [htt2, hc, ha]; simp [Nat.add_assoc]
  · simp [gridSearchStates, h2]

/-- C2 witness: two concrete friction-free runs; the second run's
`total_trades` is 2 although it closes a single trade, because the first
run's trade is still in the history. -/
theorem C2_witness :
    (∃ δ1 δ2,
        stateW1.trades = (resetState cfgSimple).trades ++ δ1 ∧
        stateW2.trades = ((resetState cfgSimple).trades ++ δ1) ++ δ2 ∧
        statsW1.total_trades = (resetState cfgSimple).trades.length + δ1.length ∧
        statsW2.total_trades =
          ((resetState cfgSimple).trades.length + δ1.length) + δ2.length ∧
        stateW1.capital = (resetState cfgSimple).capital + (δ1.map tradePnl).sum ∧
        stateW2.capital = stateW1.capital + (δ2.map tradePnl).sum) ∧
    gridSearchStates cfgSimple [rowOne, rowOne] [enterBarZero] stateW1 =
      some (stateW2, [statsW2]) :=
  C2_run_accumulates cfgSimple enterBarZero enterBarZero
    (resetState cfgSimple) [rowOne, rowOne] [rowOne, rowOne]
    stateW1 stateW2 statsW1 statsW2
    (by norm_num [run, loopBars, processBar, barPreEquity, updatePositions,
      processSignal, closeAllPositions, closeIntoState, closeTrade, calcEquity,
      calculateStatistics, tradePnl, resetState, cfgSimple, rowOne,
      enterBarZero, stateW1, statsW1, tradeW, List.enum])
    (by norm_num [run, loopBars, processBar, barPreEquity, updatePositions,
      processSignal, closeAllPositions, closeIntoState, closeTrade, calcEquity,
      calculateStatistics, tradePnl, cfgSimple, rowOne, enterBarZero, stateW1,
      stateW2, statsW2, tradeW, List.enum])

/-!
## C5 — keys of the run result dictionary
-/

/-- C5 counterexample: a completed run that closed no trades returns only
the six core keys — `trades`, `winning_trades`, `losing_trades` and
`equity_curve` are all absent, so the claimed ten-key output is wrong (and
even a run with trades never has a `trades` key). -/
theorem C5_counterexample :
    (run defaultConfig noSignalStrategy (resetState defaultConfig)
        [rowEx, rowEx]).map (fun p => p.2.keys) =
      some ["total_trades", "win_rate", "profit_factor", "sharpe_ratio",
            "max_drawdown", "total_return"] ∧
    "trades" ∉ ["total_trades", "win_rate", "profit_factor", "sharpe_ratio",
            "max_drawdown", "total_return"] ∧
    "winning_trades" ∉ ["total_trades", "win_rate", "profit_factor",
            "sharpe_ratio", "max_drawdown", "total_return"] := by
  refine ⟨?_, by decide, by decide⟩
  norm_num [run, loopBars, processBar, barPreEquity, updatePositions,
    processSignal, closeAllPositions, closeIntoState, calcEquity,
    calculateStatistics, resetState, defaultConfig, rowEx, noSignalStrategy,
    List.enum]

/-- C5 (amended): every completed run returns a dictionary that contains
the six keys `total_trades`, `win_rate`, `profit_factor`, `sharpe_ratio`,
`max_drawdown`, `total_return`; contains `winning_trades`, `losing_trades`
and `equity_curve` exactly when at least one trade closed; and never
contains a `trades` key. -/
theorem C5_result_keys (cfg : BacktestConfig) (strat : Strategy)
    (s : EngineState) (bars : List Row) (s' : EngineState) (st : StatsDict)
    (h : run cfg strat s bars = some (s', st)) :
    coreStatKeys ⊆ st.keys ∧
    "trades" ∉ st.keys ∧
    (("winning_trades" ∈ st.keys ∧ "losing_trades" ∈ st.keys ∧
        "equity_curve" ∈ st.keys) ↔ s'.trades ≠ []) := by
  have hst : st = calculateStatistics cfg s' := by
    unfold run at h
    cases hl : bars.getLast? with
    | none => rw [hl] at h; exact absurd h (by simp)
    | some lastRow =>
      rw [hl] at h
      simp only [Option.some.injEq, Prod.mk.injEq] at h
      rw [← h.2, ← h.1]
  subst hst
  unfold calculateStatistics
  split_ifs with he
  · simp only [List.isEmpty_iff] at he
    refine ⟨fun a ha => ha, by decide, ?_⟩
    constructor
    · intro hw
      exact absurd hw.1 (by decide)
    · intro hne
      exact absurd he hne
  · have he' : s'.trades ≠ [] := by
      simpa [List.isEmpty_iff] using he
    refine ⟨?_, by simp, ?_⟩
    · intro a ha
      fin_cases ha <;> simp
    · exact ⟨fun _ => he', fun _ => by refine ⟨by simp, by simp, by simp⟩⟩

/-- C5 witness: the amended theorem applied to the concrete no-trade run. -/
theorem C5_witness :
    coreStatKeys ⊆ statsNoTrades.keys ∧
    "trades" ∉ statsNoTrades.keys ∧
    (("winning_trades" ∈ statsNoTrades.keys ∧
        "losing_trades" ∈ statsNoTrades.keys ∧
        "equity_curve" ∈ statsNoTrades.keys) ↔ stateNoTrades.trades ≠ []) :=
  C5_result_keys defaultConfig noSignalStrategy (resetState defaultConfig)
    [rowEx, rowEx] stateNoTrades statsNoTrades
    (by norm_num [run, loopBars, processBar, barPreEquity, updatePositions,
      processSignal, closeAllPositions, closeIntoState, calcEquity,
      calculateStatistics, resetState, defaultConfig, rowEx, noSignalStrategy,
      stateNoTrades, statsNoTrades, List.enum])

/-!
## C6 — missing OHLCV columns
-/

/-- C6 counterexample: an input having `high`, `low`, `close`, `volume` but
missing the required OHLCV column `open` does not fail at all —
`prepare_data` performs no validation and no code path reads `open` — so
the run proceeds, contradicting the claimed DataError. -/
theorem C6_counterexample :
    prepareDataCols ["high", "low", "close", "volume"] = Except.ok () ∧
    runCols ["high", "low", "close", "volume"] 5 = Except.ok 5 ∧
    "open" ∉ ["high", "low", "close", "volume"] := by
  refine ⟨rfl, rfl, by decide⟩

/-- C6 (amended): no `DataError` exists; `prepare_data` succeeds exactly
when `close`, `high`, `low` and `volume` are all present (the `open` column
is never read), and when one of them is missing it fails with an uncaught
pandas `KeyError` naming that column, raised by the indicator computation
before any bar of the simulation executes. -/
theorem C6_missing_columns (present : List String) :
    (prepareDataCols present = Except.ok () ↔
      ("close" ∈ present ∧ "high" ∈ present ∧ "low" ∈ present ∧
        "volume" ∈ present)) ∧
    (∀ c, prepareDataCols present = Except.error c →
      c ∈ ["close", "high", "low", "volume"] ∧ c ∉ present ∧
        ∀ n, runCols present n = Except.error c) := by
  have hsub : ∀ x ∈ calculateAllReads,
      x ∈ (["close", "high", "low", "volume"] : List String) := by decide
  constructor
  · unfold prepareDataCols
    cases hf : calculateAllReads.find? (fun c => !(present.contains c)) with
    | none =>
      rw [List.find?_eq_none] at hf
      have h4 : ∀ x ∈ calculateAllReads, x ∈ present := by
        intro x hx
        have := hf x hx
        simpa using this
      exact ⟨fun _ => ⟨h4 "close" (by decide), h4 "high" (by decide),
        h4 "low" (by decide), h4 "volume" (by decide)⟩, fun _ => rfl⟩
    | some c =>
      have hcp : c ∉ present := by
        have := List.find?_some hf
        simpa using this
      constructor
      · intro h
        exact absurd h (by simp)
      · intro hfour
        exfalso
        have hc4 : c ∈ (["close", "high", "low", "volume"] : List String) :=
          hsub c (List.mem_of_find?_eq_some hf)
        fin_cases hc4
        · exact hcp hfour.1
        · exact hcp hfour.2.1
        · exact hcp hfour.2.2.1
        · exact hcp hfour.2.2.2
  · intro c hc
    unfold prepareDataCols at hc
    cases hf : calculateAllReads.find? (fun c => !(present.contains c)) with
    | none =>
      rw [hf] at hc
      exact absurd hc (by simp)
    | some c' =>
      rw [hf] at hc
      have hcc : c' = c := by simpa using hc
      subst hcc
      refine ⟨hsub c' (List.mem_of_find?_eq_some hf), ?_, ?_⟩
      · have := List.find?_some hf
        simpa using this
      · intro n
        unfold runCols prepareDataCols
        rw [hf]

/-- C6 witness: the amended theorem applied twice — at a frame with the
four read columns (where `prepare_data` succeeds) and at an empty frame
(where the first read, `close`, raises and the run executes no bar). -/
theorem C6_witness :
    ("close" ∈ (["close", "high", "low", "volume"] : List String) ∧
      "close" ∉ ([] : List String) ∧
      runCols [] 3 = Except.error "close") ∧
    prepareDataCols ["high", "low", "close", "volume"] = Except.ok () := by
  constructor
  · have h := (C6_missing_columns []).2 "close" rfl
    exact ⟨h.1, h.2.1, h.2.2 3⟩
  · exact ((C6_missing_columns ["high", "low", "close", "volume"]).1).mpr
      (by decide)

/-!
## C3 — `_validate_split` metrics come from zero returns and no trades
-/

theorem foldl_const {β γ : Type} (l : List γ) : ∀ init : β,
    l.foldl (fun acc _ => acc) init = init := by
  induction l with
  | nil => intro init; rfl
  | cons x xs ih => intro init; exact ih init

theorem foldl_ite_self {β γ : Type} (g : β → γ → Prop) [∀ b c, Decidable (g b c)]
    (l : List γ) (init : β) :
    l.foldl (fun acc i => if g acc i then acc else acc) init = init := by
  have hfun : (fun (acc : β) (i : γ) => if g acc i then acc else acc) =
      fun (acc : β) (_ : γ) => acc := by
    funext acc i
    exact ite_self acc
  rw [hfun]
  exact foldl_const l init

theorem cumprodAux_replicate_one (n : ℕ) : ∀ acc : ℚ,
    cumprodAux acc (List.replicate n 1) = List.replicate n acc := by
  induction n with
  | zero => intro acc; rfl
  | succ n ih =>
    intro acc
    simp only [List.replicate_succ, cumprodAux, mul_one]
    exact congrArg _ (ih acc)

theorem cummaxAux_replicate_self (n : ℕ) (a : ℚ) :
    cummaxAux a (List.replicate n a) = List.replicate n a := by
  induction n with
  | zero => rfl
  | succ n ih =>
    simp only [List.replicate_succ, cummaxAux, max_self]
    exact congrArg _ ih

theorem rollingMax_replicate (n : ℕ) (a : ℚ) :
    rollingMax (List.replicate n a) = List.replicate n a := by
  cases n with
  | zero => rfl
  | succ n =>
    simp only [List.replicate_succ, rollingMax]
    exact congrArg _ (cummaxAux_replicate_self n a)

theorem zipWith_replicate_same {β : Type} (f : ℚ → ℚ → β) (n : ℕ) (a b : ℚ) :
    List.zipWith f (List.replicate n a) (List.replicate n b) =
      List.replicate n (f a b) := by
  induction n with
  | zero => rfl
  | succ n ih =>
    simp only [List.replicate_succ, List.zipWith_cons_cons]
    exact congrArg _ ih

theorem drawdownsOf_replicate_zero (n : ℕ) :
    drawdownsOf (List.replicate n 0) = List.replicate n 0 := by
  unfold drawdownsOf cumulativeEquity
  rw [List.map_replicate]
  norm_num
  rw [cumprodAux_replicate_one, rollingMax_replicate, zipWith_replicate_same]
  norm_num

theorem foldl_min_replicate (n : ℕ) (a : ℚ) :
    (List.replicate n a).foldl min a = a := by
  induction n with
  | zero => rfl
  | succ n ih => simp only [List.replicate_succ, List.foldl_cons, min_self]; exact ih

/-- C3: for every strategy and every pair of data slices,
`_validate_split` computes its fold metrics from a return series that is
identically zero and an empty trade list (the signal-execution branch is a
no-op), so the metrics of every fold are those of a zero return series with
no trades — in particular `total_return` is 0 and `max_drawdown` is 0 —
independent of the input data and the strategy; under the default metric
request only `max_drawdown` and `total_return` are selected (no metrics
dataclass has a `sharpe_ratio` field). -/
theorem C3_validate_split_zero (strat : CvStrategy)
    (trainData testData : List Row) :
    cvApplyStrategy strat trainData =
      (List.replicate trainData.length 0, []) ∧
    cvApplyStrategy strat testData =
      (List.replicate testData.length 0, []) ∧
    (∀ n, totalReturnMetric (List.replicate n 0) = 0) ∧
    (∀ n, maxDrawdownMetric (List.replicate (n + 1) 0) = some 0) ∧
    selectedNames defaultPerformanceMetrics [] =
      ["max_drawdown", "total_return"] := by
  refine ⟨?_, ?_, ?_, ?_, ?_⟩
  · unfold cvApplyStrategy
    exact foldl_ite_self _ _ _
  · unfold cvApplyStrategy
    exact foldl_ite_self _ _ _
  · intro n
    unfold totalReturnMetric
    rw [List.map_replicate]
    norm_num
  · intro n
    unfold maxDrawdownMetric
    rw [drawdownsOf_replicate_zero]
    unfold listMinQ
    simp only [List.replicate_succ]
    exact congrArg _ (foldl_min_replicate n 0)
  · rfl

/-!
## C4 — drawdown durations and the open drawdown at series end
-/

theorem enumFrom_filter_snd_length {β : Type} (q : β → Bool) (l : List β) :
    ∀ n : ℕ,
      ((List.enumFrom n l).filter (fun p => q p.2)).length =
        (l.filter q).length := by
  induction l with
  | nil => intro n; rfl
  | cons x xs ih =>
    intro n
    simp only [List.enumFrom, List.filter_cons]
    cases hq : q x <;> simp [hq, ih (n + 1)]

theorem whereEq_length (l : List ℤ) (v : ℤ) :
    (whereEq l v).length = (l.filter (fun x => decide (x = v))).length := by
  unfold whereEq
  rw [List.length_map, List.enum]
  exact enumFrom_filter_snd_length (fun x => decide (x = v)) l 0

theorem diff_count_balance (b : List Bool) :
    (((diffInt b).filter (fun x => decide (x = 1))).length : ℤ) +
        boolToInt (b.headD false) =
      (((diffInt b).filter (fun x => decide (x = -1))).length : ℤ) +
        boolToInt (b.getLastD false) := by
  induction b with
  | nil => rfl
  | cons x t ih =>
    cases t with
    | nil => cases x <;> rfl
    | cons y t' =>
      have hd : diffInt (x :: y :: t') =
          (boolToInt y - boolToInt x) :: diffInt (y :: t') := rfl
      rw [hd, List.filter_cons, List.filter_cons,
        List.getLastD_cons false x (y :: t'), List.getLastD_cons x y t']
      rw [List.getLastD_cons false y t'] at ih
      cases x <;> cases y <;>
        simp only [boolToInt, cond, List.headD_cons] at ih ⊢ <;>
        norm_num at ih ⊢ <;> omega

theorem starts_ends_length (returns : List ℚ)
    (hfirst : (isDrawdownOf returns).headD false = false)
    (hlast : (isDrawdownOf returns).getLastD false = false) :
    (ddEnds returns).length = (ddStarts returns).length := by
  have h := diff_count_balance (isDrawdownOf returns)
  rw [hfirst, hlast] at h
  unfold ddEnds ddStarts
  rw [List.length_map, List.length_map, whereEq_length, whereEq_length]
  simp only [boolToInt, cond] at h
  omega

/-- C4 counterexample: on returns `[0, -1/10, 1/5, -1/2]` there is one
completed drawdown (bars 1..2, duration 1) and one still open at series
end (start bar 3).  The claim's exclusion would give `avg_duration = 1`;
the code broadcasts the single recovery index against both start indices,
counting the open drawdown with the bogus duration `2 - 3 = -1`, and
reports `avg_duration = 0`. -/
theorem C4_counterexample :
    ddDurationStats [0, -1/10, 1/5, -1/2] = some (1, 0) ∧
    claimDurationStats [0, -1/10, 1/5, -1/2] = some (1, 1) ∧
    ((0 : ℚ) ≠ 1) := by
  refine ⟨?_, ?_, by norm_num⟩
  · norm_num [ddDurationStats, ddStarts, ddEnds, whereEq, diffInt,
      isDrawdownOf, drawdownsOf, cumulativeEquity, cumprodAux, rollingMax,
      cummaxAux, boolToInt, npSub, listMaxD, meanQ, List.enum,
      List.enumFrom, List.filter]
  · norm_num [claimDurationStats, claimDurations, ddStarts, ddEnds, whereEq,
      diffInt, isDrawdownOf, drawdownsOf, cumulativeEquity, cumprodAux,
      rollingMax, cummaxAux, boolToInt, listMaxD, meanQ, List.enum,
      List.enumFrom, List.filter]

/-- C4 (amended): the transition pairing computes each completed drawdown's
duration from the first bar below the running peak to the first recovery
bar, and when the series ends recovered (and does not begin in drawdown)
the max/avg statistics are exactly those of the completed drawdowns; but a
drawdown still open at series end is not excluded: with no completed
drawdown the statistics fall back to `(0, 0)`, with exactly one completed
drawdown the open one is counted with a broadcast negative duration, and
with two or more the mismatched index arrays raise an error. -/
theorem C4_durations_closed_series (returns : List ℚ)
    (hfirst : (isDrawdownOf returns).headD false = false)
    (hlast : (isDrawdownOf returns).getLastD false = false) :
    ddDurationStats returns = claimDurationStats returns := by
  have hlen := starts_ends_length returns hfirst hlast
  have hzip : npSub ((ddEnds returns).map (fun n : ℕ => (n : ℤ)))
      ((ddStarts returns).map (fun n : ℕ => (n : ℤ))) =
      some (claimDurations returns) := by
    unfold npSub
    rw [if_pos (by rw [List.length_map, List.length_map]; exact hlen)]
    unfold claimDurations
    rw [List.zipWith_map]
  have hcl : (claimDurations returns).length = (ddEnds returns).length := by
    unfold claimDurations
    rw [List.length_zipWith, hlen, min_self]
  unfold ddDurationStats claimDurationStats
  simp only [hzip]
  by_cases h0 : 0 < (ddEnds returns).length
  · rw [if_pos ⟨by omega, h0⟩, if_pos (by omega)]
  · rw [if_neg (by omega), if_neg (by omega)]

/-- C4 witness: the amended theorem applied to a series whose single
drawdown recovers before the series ends. -/
theorem C4_witness :
    ddDurationStats [0, -1/10, 1/5, 3/10] =
      claimDurationStats [0, -1/10, 1/5, 3/10] :=
  C4_durations_closed_series [0, -1/10, 1/5, 3/10]
    (by norm_num [isDrawdownOf, drawdownsOf, cumulativeEquity, cumprodAux,
      rollingMax, cummaxAux])
    (by norm_num [isDrawdownOf, drawdownsOf, cumulativeEquity, cumprodAux,
      rollingMax, cummaxAux])

/-!
## C7 — recorded equity equals capital plus unrealized pnl
-/

theorem updatePositions_equity (cfg : BacktestConfig) (date : ℕ) (row : Row)
    (s : EngineState) : (updatePositions cfg date row s).equity = s.equity := by
  rw [updatePositions_eq, sweep_foldl]

theorem processSignal_equity (cfg : BacktestConfig) (date : ℕ) (row : Row)
    (s : EngineState) (sig : Signal) :
    (processSignal cfg date row s sig).equity = s.equity := by
  cases sig with
  | entry sym pt => exact (processSignal_entry_frame cfg date row s sym pt).2.2
  | exit sym => rw [processSignal_exit_eq, sweep_foldl]

theorem signalFold_equity (cfg : BacktestConfig) (date : ℕ) (row : Row)
    (sigs : List Signal) : ∀ st : EngineState,
    (sigs.foldl (processSignal cfg date row) st).equity = st.equity := by
  induction sigs with
  | nil => intro st; rfl
  | cons sig rest ih =>
    intro st
    rw [List.foldl_cons, ih, processSignal_equity]

theorem barPreEquity_equity (cfg : BacktestConfig) (strat : Strategy)
    (bars : List Row) (s : EngineState) (i : ℕ) (row : Row) :
    (barPreEquity cfg strat bars s i row).equity = s.equity := by
  unfold barPreEquity
  rw [signalFold_equity, updatePositions_equity]

theorem closeAll_equity (cfg : BacktestConfig) (date : ℕ) (row : Row)
    (s : EngineState) : (closeAllPositions cfg date row s).equity = s.equity := by
  rw [closeAll_eq, sweep_foldl]

theorem foldl_add_map {β : Type} (f : β → ℚ) (l : List β) : ∀ c : ℚ,
    l.foldl (fun eq pos => eq + f pos) c = c + (l.map f).sum := by
  induction l with
  | nil => intro c; simp
  | cons x xs ih =>
    intro c
    rw [List.foldl_cons, ih, List.map_cons, List.sum_cons, add_assoc]

theorem calcEquity_eq (row : Row) (s : EngineState) :
    calcEquity row s =
      s.capital + (s.positions.map (unrealizedPnl row.close)).sum := by
  have h : calcEquity row s =
      s.positions.foldl (fun eq pos => eq + unrealizedPnl row.close pos)
        s.capital := rfl
  rw [h, foldl_add_map]

theorem processBar_equity (cfg : BacktestConfig) (strat : Strategy)
    (bars : List Row) (s : EngineState) (i : ℕ) (row : Row) :
    (processBar cfg strat bars s i row).equity =
      s.equity ++ [(i, calcEquity row (barPreEquity cfg strat bars s i row))] := by
  show (barPreEquity cfg strat bars s i row).equity ++ _ = _
  rw [barPreEquity_equity]

theorem loopFold_equity_length (cfg : BacktestConfig) (strat : Strategy)
    (bars : List Row) (l : List (ℕ × Row)) : ∀ st : EngineState,
    ((l.foldl (fun st p => processBar cfg strat bars st p.1 p.2) st).equity).length =
      st.equity.length + l.length := by
  induction l with
  | nil => intro st; rfl
  | cons p rest ih =>
    intro st
    rw [List.foldl_cons, ih, processBar_equity]
    simp
    omega

theorem loopBarsUpTo_equity_length (cfg : BacktestConfig) (strat : Strategy)
    (bars : List Row) (s : EngineState) (i : ℕ) (h : i ≤ bars.length) :
    (loopBarsUpTo cfg strat bars s i).equity.length = s.equity.length + i := by
  unfold loopBarsUpTo
  rw [loopFold_equity_length, List.length_take, List.enum_length,
    min_eq_left h]

theorem loopFold_equity_suffix (cfg : BacktestConfig) (strat : Strategy)
    (bars : List Row) (l : List (ℕ × Row)) : ∀ st : EngineState,
    ∃ suf, (l.foldl (fun st p => processBar cfg strat bars st p.1 p.2) st).equity =
      st.equity ++ suf := by
  induction l with
  | nil => intro st; exact ⟨[], by simp⟩
  | cons p rest ih =>
    intro st
    obtain ⟨suf, hsuf⟩ := ih (processBar cfg strat bars st p.1 p.2)
    rw [List.foldl_cons]
    refine ⟨[(p.1, calcEquity p.2 (barPreEquity cfg strat bars st p.1 p.2))] ++ suf, ?_⟩
    rw [hsuf, processBar_equity, List.append_assoc]

theorem loopBars_decompose (cfg : BacktestConfig) (strat : Strategy)
    (bars : List Row) (s : EngineState) (i : ℕ) :
    loopBars cfg strat bars s =
      (bars.enum.drop i).foldl
        (fun st p => processBar cfg strat bars st p.1 p.2)
        (loopBarsUpTo cfg strat bars s i) := by
  unfold loopBars loopBarsUpTo
  rw [← List.foldl_append, List.take_append_drop]

/-- C7: at every bar of every completed run, the equity value recorded for
that bar equals the realized capital plus the sum over the open positions
of their unrealized pnl at that bar's close — `(close - entry_price)*size`
for a long, `(entry_price - close)*size` for a short — taken in the state
reached after that bar's position updates and signal processing. -/
theorem C7_equity_records (cfg : BacktestConfig) (strat : Strategy)
    (bars : List Row) (s : EngineState) (i : ℕ) (row : Row)
    (s' : EngineState) (st : StatsDict)
    (hrow : bars[i]? = some row)
    (hrun : run cfg strat s bars = some (s', st)) :
    s'.equity[s.equity.length + i]? =
      some (i,
        (barPreEquity cfg strat bars (loopBarsUpTo cfg strat bars s i) i
            row).capital +
          (((barPreEquity cfg strat bars (loopBarsUpTo cfg strat bars s i) i
              row).positions).map (unrealizedPnl row.close)).sum) := by
  have hi : i < bars.length := by
    by_contra hc
    rw [List.getElem?_eq_none (by omega)] at hrow
    exact Option.noConfusion hrow
  have hs' : s'.equity = (loopBars cfg strat bars s).equity := by
    unfold run at hrun
    cases hl : bars.getLast? with
    | none => rw [hl] at hrun; exact absurd hrun (by simp)
    | some lastRow =>
      rw [hl] at hrun
      simp only [Option.some.injEq, Prod.mk.injEq] at hrun
      rw [← hrun.1, closeAll_equity]
  have henl : i < bars.enum.length := by
    rw [List.enum_length]; exact hi
  have hgete : bars.enum[i] = (i, row) := by
    rw [List.getElem_enum]
    have : bars[i] = row := by
      have h2 := List.getElem?_eq_getElem hi
      rw [hrow] at h2
      exact (Option.some.injEq _ _).mp h2.symm
    rw [this]
  have hdrop : bars.enum.drop i = (i, row) :: bars.enum.drop (i + 1) := by
    rw [List.drop_eq_getElem_cons henl, hgete]
  rw [hs', loopBars_decompose cfg strat bars s i, hdrop, List.foldl_cons]
  obtain ⟨suf, hsuf⟩ := loopFold_equity_suffix cfg strat bars
    (bars.enum.drop (i + 1))
    (processBar cfg strat bars (loopBarsUpTo cfg strat bars s i) i row)
  rw [hsuf, processBar_equity, List.append_assoc]
  have hlen : (loopBarsUpTo cfg strat bars s i).equity.length =
      s.equity.length + i :=
    loopBarsUpTo_equity_length cfg strat bars s i (le_of_lt hi)
  rw [← hlen, List.getElem?_append_right (le_refl _), Nat.sub_self]
  rw [List.cons_append]
  rw [calcEquity_eq]
  simp

/-- C7 witness: the theorem applied to a one-bar run with no signals. -/
theorem C7_witness :
    stateOneBar.equity[(resetState defaultConfig).equity.length + 0]? =
      some (0,
        (barPreEquity defaultConfig noSignalStrategy [rowEx]
            (loopBarsUpTo defaultConfig noSignalStrategy [rowEx]
              (resetState defaultConfig) 0) 0 rowEx).capital +
          (((barPreEquity defaultConfig noSignalStrategy [rowEx]
              (loopBarsUpTo defaultConfig noSignalStrategy [rowEx]
                (resetState defaultConfig) 0) 0 rowEx).positions).map
            (unrealizedPnl rowEx.close)).sum) :=
  C7_equity_records defaultConfig noSignalStrategy [rowEx]
    (resetState defaultConfig) 0 rowEx stateOneBar statsOneBar rfl
    (by norm_num [run, loopBars, processBar, barPreEquity, updatePositions,
      processSignal, closeAllPositions, closeIntoState, calcEquity,
      calculateStatistics, resetState, defaultConfig, rowEx, noSignalStrategy,
      stateOneBar, statsOneBar, List.enum])

/-!
## C8 — the open-position count never exceeds `max_positions`
-/

theorem updatePositions_positions (cfg : BacktestConfig) (date : ℕ)
    (row : Row) (s : EngineState) :
    (updatePositions cfg date row s).positions =
      sweepKept (triggerOf row) s.positions := by
  rw [updatePositions_eq, sweep_foldl]
  exact List.nil_append _

theorem processSignal_positions_le (cfg : BacktestConfig) (date : ℕ)
    (row : Row) (st : EngineState) (sig : Signal)
    (h : st.positions.length ≤ cfg.max_positions) :
    (processSignal cfg date row st sig).positions.length ≤
      cfg.max_positions := by
  cases sig with
  | entry sym pt =>
    simp only [processSignal]
    split_ifs with h1 h2 <;> first
      | exact h
      | (simp only [List.length_append, List.length_cons, List.length_nil]
         omega)
  | exit sym =>
    rw [processSignal_exit_eq, sweep_foldl]
    show (([] : List TradeInfo) ++ sweepKept _ st.positions).length ≤ _
    rw [List.nil_append]
    exact le_trans (sweepKept_length_le _ _) h

theorem signalFold_positions_le (cfg : BacktestConfig) (date : ℕ) (row : Row)
    (sigs : List Signal) : ∀ st : EngineState,
    st.positions.length ≤ cfg.max_positions →
    ((sigs.foldl (processSignal cfg date row) st).positions).length ≤
      cfg.max_positions := by
  induction sigs with
  | nil => intro st h; exact h
  | cons sig rest ih =>
    intro st h
    rw [List.foldl_cons]
    exact ih _ (processSignal_positions_le cfg date row st sig h)

theorem barPreEquity_positions_le (cfg : BacktestConfig) (strat : Strategy)
    (bars : List Row) (s : EngineState) (i : ℕ) (row : Row)
    (h : s.positions.length ≤ cfg.max_positions) :
    ((barPreEquity cfg strat bars s i row).positions).length ≤
      cfg.max_positions := by
  unfold barPreEquity
  refine signalFold_positions_le cfg i row _ _ ?_
  rw [updatePositions_positions]
  exact le_trans (sweepKept_length_le _ _) h

theorem processBar_positions_le (cfg : BacktestConfig) (strat : Strategy)
    (bars : List Row) (s : EngineState) (i : ℕ) (row : Row)
    (h : s.positions.length ≤ cfg.max_positions) :
    ((processBar cfg strat bars s i row).positions).length ≤
      cfg.max_positions :=
  barPreEquity_positions_le cfg strat bars s i row h

theorem loopFold_positions_le (cfg : BacktestConfig) (strat : Strategy)
    (bars : List Row) (l : List (ℕ × Row)) : ∀ st : EngineState,
    st.positions.length ≤ cfg.max_positions →
    ((l.foldl (fun st p => processBar cfg strat bars st p.1 p.2)
        st).positions).length ≤ cfg.max_positions := by
  induction l with
  | nil => intro st h; exact h
  | cons p rest ih =>
    intro st h
    rw [List.foldl_cons]
    exact ih _ (processBar_positions_le cfg strat bars st p.1 p.2 h)

theorem closeAll_positions (cfg : BacktestConfig) (date : ℕ) (row : Row)
    (s : EngineState) : (closeAllPositions cfg date row s).positions = [] := by
  rw [closeAll_eq, sweep_foldl]
  simp [sweepKept, List.filter]

/-- C8: throughout every run the number of open positions never exceeds
`config.max_positions` — an entry signal arriving at the cap leaves the
state (positions, trades, capital, everything) untouched, the state after
each processed bar respects the cap, and so does the final state of a
completed run. -/
theorem C8_max_positions (cfg : BacktestConfig) (strat : Strategy)
    (bars : List Row) (s : EngineState)
    (h : s.positions.length ≤ cfg.max_positions) :
    (∀ (date : ℕ) (row : Row) (sym : String) (pt : PosType)
        (st' : EngineState), cfg.max_positions ≤ st'.positions.length →
        processSignal cfg date row st' (Signal.entry sym pt) = st') ∧
    (∀ n, ((loopBarsUpTo cfg strat bars s n).positions).length ≤
        cfg.max_positions) ∧
    (∀ (s' : EngineState) (st : StatsDict),
        run cfg strat s bars = some (s', st) →
        s'.positions.length ≤ cfg.max_positions) := by
  refine ⟨?_, ?_, ?_⟩
  · intro date row sym pt st' hge
    simp only [processSignal]
    rw [if_pos hge]
  · intro n
    unfold loopBarsUpTo
    exact loopFold_positions_le cfg strat bars _ s h
  · intro s' st hrun
    unfold run at hrun
    cases hl : bars.getLast? with
    | none => rw [hl] at hrun; exact absurd hrun (by simp)
    | some lastRow =>
      rw [hl] at hrun
      simp only [Option.some.injEq, Prod.mk.injEq] at hrun
      rw [← hrun.1, closeAll_positions]
      exact Nat.zero_le _

/-- C8 witness: with `max_positions = 0` an entry signal on a fresh state
is ignored outright, and the position bound holds after the first bar. -/
theorem C8_witness :
    processSignal cfgZeroMax 0 rowEx (resetState cfgZeroMax)
        (Signal.entry "X" PosType.long) = resetState cfgZeroMax ∧
    ((loopBarsUpTo cfgZeroMax noSignalStrategy [rowEx]
        (resetState cfgZeroMax) 1).positions).length ≤
      cfgZeroMax.max_positions := by
  obtain ⟨h1, h2, _⟩ := C8_max_positions cfgZeroMax noSignalStrategy [rowEx]
    (resetState cfgZeroMax) (by simp [resetState])
  exact ⟨h1 0 rowEx "X" PosType.long (resetState cfgZeroMax)
    (by simp [resetState, cfgZeroMax]), h2 1⟩

/-!
## C9 — `fitness_history` of the genetic optimizer
-/

theorem opQ_assoc (m : Bool) (a b c : ℚ) :
    opQ m (opQ m a b) c = opQ m a (opQ m b c) := by
  cases m <;> simp [opQ, max_assoc, min_assoc]

theorem updateBest_none (m : Bool) (z : Option ℚ) :
    updateBest m none z = z := by
  cases z <;> rfl

theorem updateBest_some_some (m : Bool) (a g : ℚ) :
    updateBest m (some a) (some g) = some (opQ m a g) := by
  unfold updateBest opQ
  cases m
  · rcases lt_or_ge g a with hlt | hge
    · simp only [if_pos hlt, Bool.false_eq_true, if_false]
      rw [min_eq_right hlt.le]
    · simp only [if_neg (not_lt.mpr hge), Bool.false_eq_true, if_false]
      rw [min_eq_left hge]
  · rcases lt_or_ge a g with hlt | hge
    · simp only [if_pos hlt, if_true]
      rw [max_eq_right hlt.le]
    · simp only [if_neg (not_lt.mpr hge), if_true]
      rw [max_eq_left hge]

theorem updateBest_assoc (m : Bool) (b x y : Option ℚ) :
    updateBest m b (updateBest m x y) = updateBest m (updateBest m b x) y := by
  cases x with
  | none => rw [updateBest_none]; rfl
  | some xv =>
    cases y with
    | none => rfl
    | some yv =>
      rw [updateBest_some_some]
      cases b with
      | none => rw [updateBest_none, updateBest_none, updateBest_some_some]
      | some bv =>
        rw [updateBest_some_some, updateBest_some_some,
          updateBest_some_some, opQ_assoc]

theorem listBest_eq_fold (m : Bool) (x : ℚ) (xs : List ℚ) :
    listBest m (x :: xs) = some (xs.foldl (opQ m) x) :=
  rfl

theorem foldl_opQ_assoc (m : Bool) (l : List ℚ) : ∀ a b : ℚ,
    l.foldl (opQ m) (opQ m a b) = opQ m a (l.foldl (opQ m) b) := by
  induction l with
  | nil => intro a b; rfl
  | cons c t ih =>
    intro a b
    rw [List.foldl_cons, List.foldl_cons, opQ_assoc, ih]

theorem listBest_append (m : Bool) (A B : List ℚ) :
    listBest m (A ++ B) = updateBest m (listBest m A) (listBest m B) := by
  cases A with
  | nil =>
    rw [List.nil_append]
    exact (updateBest_none m _).symm
  | cons a A' =>
    cases B with
    | nil => rw [List.append_nil]; rfl
    | cons b B' =>
      rw [List.cons_append, listBest_eq_fold, listBest_eq_fold,
        listBest_eq_fold, updateBest_some_some, List.foldl_append,
        List.foldl_cons, foldl_opQ_assoc]

theorem genAux_length {α : Type} (m : Bool) (fitness : α → ℚ)
    (nextPop : ℕ → List α → List ℚ → List α) :
    ∀ (n g : ℕ) (pop : List α) (best : Option ℚ),
      (genAux m fitness nextPop n g pop best).length = n := by
  intro n
  induction n with
  | zero => intro g pop best; rfl
  | succ k ih =>
    intro g pop best
    simp only [genAux, List.length_cons]
    rw [ih]

theorem genAux_get {α : Type} (m : Bool) (fitness : α → ℚ)
    (nextPop : ℕ → List α → List ℚ → List α) :
    ∀ (i n g : ℕ) (pop : List α) (best : Option ℚ), i < n →
      (genAux m fitness nextPop n g pop best)[i]? =
        some (updateBest m best
          (listBest m (observedScores fitness nextPop g pop i))) := by
  intro i
  induction i with
  | zero =>
    intro n g pop best hn
    cases n with
    | zero => omega
    | succ k => simp [genAux, observedScores]
  | succ i ih =>
    intro n g pop best hn
    cases n with
    | zero => omega
    | succ k =>
      simp only [genAux, List.getElem?_cons_succ]
      rw [ih k (g + 1) _ _ (by omega)]
      rw [show observedScores fitness nextPop g pop (i + 1) =
        pop.map fitness ++
          observedScores fitness nextPop (g + 1)
            (nextPop g pop (pop.map fitness)) i from rfl]
      rw [listBest_append, updateBest_assoc]

theorem observedScores_succ_append {α : Type} (fitness : α → ℚ)
    (nextPop : ℕ → List α → List ℚ → List α) :
    ∀ (i g : ℕ) (pop : List α), ∃ extra,
      observedScores fitness nextPop g pop (i + 1) =
        observedScores fitness nextPop g pop i ++ extra := by
  intro i
  induction i with
  | zero =>
    intro g pop
    exact ⟨observedScores fitness nextPop (g + 1)
      (nextPop g pop (pop.map fitness)) 0, rfl⟩
  | succ i ih =>
    intro g pop
    obtain ⟨extra, hext⟩ := ih (g + 1) (nextPop g pop (pop.map fitness))
    refine ⟨extra, ?_⟩
    show pop.map fitness ++ _ = (pop.map fitness ++ _) ++ extra
    rw [hext, List.append_assoc]

theorem updateBest_le (m : Bool) (a b : ℚ) (z : Option ℚ)
    (h : updateBest m (some a) z = some b) :
    (m = true → a ≤ b) ∧ (m = false → b ≤ a) := by
  cases z with
  | none =>
    have hab : a = b := by simpa [updateBest] using h
    subst hab
    exact ⟨fun _ => le_refl a, fun _ => le_refl a⟩
  | some g =>
    rw [updateBest_some_some] at h
    have hb : opQ m a g = b := by simpa using h
    subst hb
    cases m
    · refine ⟨fun hc => absurd hc (by decide), fun _ => ?_⟩
      simp only [opQ, Bool.false_eq_true, if_false]
      exact min_le_left a g
    · refine ⟨fun _ => ?_, fun hc => absurd hc (by decide)⟩
      simp only [opQ, if_true]
      exact le_max_left a g

/-- C9: `fitness_history` has exactly one entry per generation; entry `i`
is the best fitness value observed over generations `0..i` (for every
possible outcome of the random population construction, abstracted as
`nextPop`); and the sequence is monotone — non-decreasing under maximize,
non-increasing under minimize. -/
theorem C9_fitness_history {α : Type} (maximize : Bool) (fitness : α → ℚ)
    (nextPop : ℕ → List α → List ℚ → List α) (pop0 : List α)
    (generations : ℕ) :
    (fitnessHistory maximize fitness nextPop pop0 generations).length =
      generations ∧
    (∀ i, i < generations →
      (fitnessHistory maximize fitness nextPop pop0 generations)[i]? =
        some (listBest maximize (observedScores fitness nextPop 0 pop0 i))) ∧
    (∀ i a b,
      (fitnessHistory maximize fitness nextPop pop0 generations)[i]? =
        some (some a) →
      (fitnessHistory maximize fitness nextPop pop0 generations)[i + 1]? =
        some (some b) →
      (maximize = true → a ≤ b) ∧ (maximize = false → b ≤ a)) := by
  have hget : ∀ i, i < generations →
      (fitnessHistory maximize fitness nextPop pop0 generations)[i]? =
        some (listBest maximize (observedScores fitness nextPop 0 pop0 i)) := by
    intro i hi
    unfold fitnessHistory
    rw [genAux_get maximize fitness nextPop i generations 0 pop0 none hi,
      updateBest_none]
  refine ⟨genAux_length maximize fitness nextPop generations 0 pop0 none,
    hget, ?_⟩
  intro i a b ha hb
  have hi1 : i + 1 < generations := by
    by_contra hc
    have hlen : (fitnessHistory maximize fitness nextPop pop0
        generations).length ≤ i + 1 := by
      unfold fitnessHistory
      rw [genAux_length]
      omega
    rw [List.getElem?_eq_none hlen] at hb
    exact Option.noConfusion hb
  have hi : i < generations := by omega
  rw [hget i hi] at ha
  rw [hget (i + 1) hi1] at hb
  have ha' : listBest maximize (observedScores fitness nextPop 0 pop0 i) =
      some a := by simpa using ha
  obtain ⟨extra, hext⟩ := observedScores_succ_append fitness nextPop i 0 pop0
  rw [hext, listBest_append, ha'] at hb
  have hb' : updateBest maximize (some a) (listBest maximize extra) =
      some b := by simpa using hb
  exact updateBest_le maximize a b _ hb'

/-- C9 witness: a concrete two-generation history with `maximize = true`;
the entries are best-so-far values and are non-decreasing. -/
theorem C9_witness :
    (fitnessHistory true (fun x : ℚ => x) (fun _ _ _ => [2]) [1] 2).length =
      2 ∧
    (fitnessHistory true (fun x : ℚ => x) (fun _ _ _ => [2]) [1] 2)[0]? =
      some (listBest true
        (observedScores (fun x : ℚ => x) (fun _ _ _ => [2]) 0 [1] 0)) ∧
    ((1 : ℚ) ≤ 2) := by
  obtain ⟨h1, h2, h3⟩ :=
    C9_fitness_history true (fun x : ℚ => x) (fun _ _ _ => [2]) [1] 2
  refine ⟨h1, h2 0 (by decide), ?_⟩
  refine (h3 0 1 2 ?_ ?_).1 rfl
  · show (fitnessHistory true (fun x : ℚ => x) (fun _ _ _ => [2]) [1] 2)[0]? =
      some (some 1)
    norm_num [fitnessHistory, genAux, updateBest, listBest]
  · show (fitnessHistory true (fun x : ℚ => x) (fun _ _ _ => [2]) [1] 2)[1]? =
      some (some 2)
    norm_num [fitnessHistory, genAux, updateBest, listBest]

/-!
## C10 — walk-forward windows
-/

theorem wfAux_get (train test s total : ℕ) :
    ∀ (k cur : ℕ),
      (wfAux train test s total cur)[k]? =
        if cur + k * (s + 1) + train + test ≤ total then
          some (cur + k * (s + 1))
        else none := by
  intro k
  induction k with
  | zero =>
    intro cur
    rw [wfAux]
    by_cases hc : cur + train + test ≤ total
    · rw [if_pos hc]
      simp only [Nat.zero_mul, Nat.add_zero]
      rw [if_pos hc]
      exact List.getElem?_cons_zero
    · rw [if_neg hc]
      simp only [Nat.zero_mul, Nat.add_zero]
      rw [if_neg hc]
      rfl
  | succ k ih =>
    intro cur
    rw [wfAux]
    by_cases hc : cur + train + test ≤ total
    · rw [if_pos hc, List.getElem?_cons_succ, ih (cur + (s + 1)),
        show cur + (s + 1) + k * (s + 1) = cur + (k + 1) * (s + 1) from by
          ring]
    · rw [if_neg hc]
      have hmono : cur + train + test ≤
          cur + (k + 1) * (s + 1) + train + test :=
        Nat.add_le_add_right
          (Nat.add_le_add_right (Nat.le_add_right cur _) train) test
      rw [if_neg (fun habs => hc (le_trans hmono habs))]
      rfl

/-- C10: window `k` of `walk_forward_analysis` trains on the `train_size`
bars starting at `k * step_size` and tests on the `test_size` bars
immediately following them; a window exists exactly while
`k*step_size + train_size + test_size ≤ len(data)` (so iteration stops as
soon as the window no longer fits, and successive windows advance by
exactly `step_size`); within a window the train and test slices read
disjoint position ranges. -/
theorem C10_walk_forward (train test step total : ℕ) (hstep : 0 < step) :
    (∀ k, (wfStarts train test step total)[k]? =
        if k * step + train + test ≤ total then some (k * step) else none) ∧
    (∀ (data : List Row) (cur i : ℕ), i < train →
        (wfTrainSlice data train cur)[i]? = data[cur + i]?) ∧
    (∀ (data : List Row) (cur j : ℕ), j < test →
        (wfTestSlice data train test cur)[j]? = data[(cur + train) + j]?) ∧
    (∀ cur i j, i < train → j < test → cur + i ≠ (cur + train) + j) := by
  refine ⟨?_, ?_, ?_, ?_⟩
  · intro k
    unfold wfStarts
    rw [wfAux_get, show step - 1 + 1 = step from by omega]
    simp only [Nat.zero_add]
  · intro data cur i hi
    unfold wfTrainSlice
    rw [List.getElem?_take_of_lt hi, List.getElem?_drop]
  · intro data cur j hj
    unfold wfTestSlice
    rw [List.getElem?_take_of_lt hj, List.getElem?_drop]
  · intro cur i j hi hj
    omega

/-- C10 witness: with `train = 3`, `test = 2`, `step = 2` on 12 bars the
fourth window starts at bar 6, a fifth window does not fit, and train/test
positions are disjoint. -/
theorem C10_witness :
    (wfStarts 3 2 2 12)[3]? = some 6 ∧
    (wfStarts 3 2 2 12)[4]? = none ∧
    (wfTrainSlice (List.replicate 12 rowEx) 3 2)[1]? =
      (List.replicate 12 rowEx)[2 + 1]? ∧
    (2 : ℕ) + 1 ≠ (2 + 3) + 1 := by
  obtain ⟨h1, h2, h3, h4⟩ := C10_walk_forward 3 2 2 12 (by decide)
  refine ⟨?_, ?_, h2 (List.replicate 12 rowEx) 2 1 (by decide),
    h4 2 1 1 (by decide) (by decide)⟩
  · have := h1 3
    simpa using this
  · have := h1 4
    simpa using this

end MisaCash
